import Mathlib

/-!
# CElidingLabel (src/ElidingLabel.cpp)

A shallow embedding of the eliding label widget of the Advanced Docking System:
the private data `ElidingLabelPrivate`, the elide pass `elideText`, and the
public operations of `CElidingLabel` (constructors, `setText`, `setElideMode`,
`resizeEvent`, the two mouse handlers, `sizeHint`, `text`, `isElided`).

The host toolkit (Qt) is not part of the file: the HTML-to-plain-text rendering
of `QTextDocument`, `QFontMetrics::elidedText`, the label's margin and indent and
the size hint of a plain `QLabel` are taken as parameters (`Toolkit`).  The
widget width returned by `size().width()` is an input of the operations that
read it.

A `QString` is a sequence of UTF-16 code units, and a `QChar` is one code unit,
given by its number; a character outside the basic plane takes two of them.
The two places where the source reads a character by index without a bounds
check of its own (`plain.at(0)` and `str[j]`) are modelled by `Option`: `none`
means that a character outside the string was read.  The reads `Text[i]` are
guarded by the loop condition `i < Text.length()`, so the loop is a recursion
over the characters of `Text` together with the index `i`.  Lengths and widths
are far below the range of `int`, so `int` arithmetic is modelled by `Int` and
indices by `Nat`.
-/

namespace ads

/-- A character of a `QString`: one UTF-16 code unit, given by its number. -/
abbrev QChar := Nat

/-- The string type of the toolkit: a finite sequence of UTF-16 code units. -/
abbrev QString := List QChar

/-- The horizontal ellipsis U+2026, the literal that the source compares with and appends. -/
def ellipsis : QChar := 0x2026

/-- The character `<` (U+003C), which opens a tag. -/
def tagOpen : QChar := 0x3C

/-- The character `>` (U+003E), which closes a tag. -/
def tagClose : QChar := 0x3E

/-- The UTF-16 code units of a Unicode character: one unit in the basic plane, a high and
a low surrogate outside it. -/
def utf16Units (c : Char) : List QChar :=
  if c.toNat < 0x10000 then [c.toNat]
  else [0xD800 + (c.toNat - 0x10000) / 0x400, 0xDC00 + (c.toNat - 0x10000) % 0x400]

/-- The code units of a list of Unicode characters, in order. -/
def utf16OfChars : List Char → QString
  | [] => []
  | c :: rest => utf16Units c ++ utf16OfChars rest

/-- The `QString` that holds the given text. -/
def utf16 (s : String) : QString :=
  utf16OfChars s.toList

/-- The enumeration `Qt::TextElideMode`. -/
inductive TextElideMode where
  | ElideLeft
  | ElideRight
  | ElideMiddle
  | ElideNone
  deriving DecidableEq, Repr

/-- The mouse buttons an event can report (`Qt::MouseButton`). -/
inductive MouseButton where
  | NoButton
  | LeftButton
  | RightButton
  | MiddleButton
  deriving DecidableEq, Repr

/-- The signals of `CElidingLabel`, as they are recorded in the emission log. -/
inductive Signal where
  | elidedChanged (elided : Bool)
  | clicked
  | doubleClicked
  deriving DecidableEq, Repr

/-- The services of the host toolkit that the widget calls. -/
structure Toolkit where
  /-- The composition of `QTextDocument::setHtml` and `QTextDocument::toPlainText`. -/
  toPlainText : QString → QString
  /-- The function `QFontMetrics::elidedText(text, mode, width)` for the label's font. -/
  elidedText : QString → TextElideMode → Int → QString
  /-- The value of `QLabel::margin()`. -/
  margin : Int
  /-- The value of `QLabel::indent()`. -/
  indent : Int
  /-- The value of `QLabel::sizeHint()` for a plain label holding the given text. -/
  labelSizeHint : QString → Int × Int

/-- The state of a `CElidingLabel`: the fields of `ElidingLabelPrivate`, the text held by
the `QLabel` base class (what is painted), the text held by the hidden `m_fullTextLabel`,
and the log of emitted signals (oldest first).  The tool tip is not tracked. -/
structure CElidingLabel where
  ElideMode : TextElideMode
  Text : QString
  IsElided : Bool
  labelText : QString
  fullText : QString
  emitted : List Signal
  deriving DecidableEq, Repr

/-- The method `ElidingLabelPrivate::isModeElideNone`. -/
def isModeElideNone (s : CElidingLabel) : Bool :=
  decide (TextElideMode.ElideNone = s.ElideMode)

/-- The test `str.endsWith("…")`. -/
def endsWithEllipsis (str : QString) : Bool :=
  decide (str.getLast? = some ellipsis)

/-- The read `plain.at(0)`; `none` when the string has no first character. -/
def at0 (plain : QString) : Option QChar :=
  plain.get? 0

/-- The `for` loop of `elideText` (lines 87-111), started at index `i` on the remaining
characters of `Text`, with the current values of `inTag` and `j`.  The result is the value
of `j` after the loop: the index `i` of the last matched character when the whole of `str`
was found, `-1` on a mismatch outside a tag, and the number of characters matched so far
when `Text` is exhausted.  `none` when `str[j]` is read with `j` outside `str`. -/
def findEnd (str : QString) : QString → Nat → Bool → Nat → Option Int
  | [], _, _, j => some (Int.ofNat j)
  | c :: rest, i, inTag, j =>
    if c = tagOpen then findEnd str rest (i + 1) true j
    else if c = tagClose then findEnd str rest (i + 1) false j
    else if inTag then findEnd str rest (i + 1) inTag j
    else
      match str.get? j with
      | none => none
      | some d =>
        if c = d then
          if j + 1 = str.length then some (Int.ofNat i)
          else findEnd str rest (i + 1) inTag (j + 1)
        else some (-1)

/-- The text handed to `QLabel::setText` when the label is elided (lines 83-116): for text
with markup the ellipsis is cut off, the end of the elided text is searched in the markup,
and on success the markup up to that position plus an ellipsis is shown. -/
def elidedDisplay (Text plain str : QString) : Option QString :=
  if plain ≠ Text then
    let str1 := if endsWithEllipsis str then str.dropLast else str
    (findEnd str1 Text 0 false 0).map fun j =>
      if j > -1 then Text.take (j + 1).toNat ++ [ellipsis] else str1
  else some str

/-- The string that `elideText` compares, searches and displays (lines 67-77): the result
of the toolkit for the plain rendering of the text, with a lone ellipsis replaced by the
first character of the plain text. -/
def elidedPlain (tk : Toolkit) (Width : Int) (s : CElidingLabel) : Option QString :=
  let plain := tk.toPlainText s.Text
  let str := tk.elidedText plain s.ElideMode (Width - tk.margin * 2 - tk.indent)
  if str = [ellipsis] then (at0 plain).map fun c => [c] else some str

/-- The method `ElidingLabelPrivate::elideText(Width)`. -/
def elideText (tk : Toolkit) (Width : Int) (s : CElidingLabel) : Option CElidingLabel :=
  if isModeElideNone s then some s
  else
    let plain := tk.toPlainText s.Text
    (elidedPlain tk Width s).bind fun str =>
    let WasElided := s.IsElided
    let IsElided := decide (str ≠ plain)
    (if IsElided then elidedDisplay s.Text plain str else some s.Text).map fun shown =>
    { s with
      IsElided := IsElided
      emitted := if IsElided ≠ WasElided then s.emitted ++ [Signal.elidedChanged IsElided]
                 else s.emitted
      labelText := shown }

/-- The constructor `CElidingLabel(text, parent, f)`. -/
def CElidingLabel.create (text : QString) : CElidingLabel :=
  { ElideMode := TextElideMode.ElideNone
    Text := text
    IsElided := false
    labelText := text
    fullText := text
    emitted := [] }

/-- The constructor `CElidingLabel(parent, f)`, which delegates with an empty string. -/
def CElidingLabel.createEmpty : CElidingLabel :=
  CElidingLabel.create []

/-- The getter `CElidingLabel::elideMode`. -/
def elideMode (s : CElidingLabel) : TextElideMode := s.ElideMode

/-- The getter `CElidingLabel::isElided`. -/
def isElided (s : CElidingLabel) : Bool := s.IsElided

/-- The getter `CElidingLabel::text`. -/
def text (s : CElidingLabel) : QString := s.Text

/-- The method `CElidingLabel::sizeHint`: the size hint of the hidden full-text label. -/
def sizeHint (tk : Toolkit) (s : CElidingLabel) : Int × Int :=
  tk.labelSizeHint s.fullText

/-- The method `CElidingLabel::setElideMode(mode)`; `width` is `size().width()`. -/
def setElideMode (tk : Toolkit) (mode : TextElideMode) (width : Int) (s : CElidingLabel) :
    Option CElidingLabel :=
  elideText tk width { s with ElideMode := mode }

/-- The method `CElidingLabel::setText(text)`; `width` is `size().width()`. -/
def setText (tk : Toolkit) (text : QString) (width : Int) (s : CElidingLabel) :
    Option CElidingLabel :=
  let s1 := { s with fullText := text, Text := text }
  if isModeElideNone s1 then some { s1 with labelText := text }
  else elideText tk width s1

/-- The handler `CElidingLabel::resizeEvent(event)`; `width` is `event->size().width()`. -/
def resizeEvent (tk : Toolkit) (width : Int) (s : CElidingLabel) : Option CElidingLabel :=
  if !isModeElideNone s then elideText tk width s else some s

/-- The handler `CElidingLabel::mouseReleaseEvent(event)`; `button` is `event->button()`. -/
def mouseReleaseEvent (button : MouseButton) (s : CElidingLabel) : CElidingLabel :=
  if button ≠ MouseButton.LeftButton then s
  else { s with emitted := s.emitted ++ [Signal.clicked] }

/-- The handler `CElidingLabel::mouseDoubleClickEvent(ev)`. -/
def mouseDoubleClickEvent (_button : MouseButton) (s : CElidingLabel) : CElidingLabel :=
  { s with emitted := s.emitted ++ [Signal.doubleClicked] }

/-- The calls a client or the event loop can make on a constructed label. -/
inductive Op where
  | setText (text : QString) (width : Int)
  | setElideMode (mode : TextElideMode) (width : Int)
  | resizeEvent (width : Int)
  | mouseReleaseEvent (button : MouseButton)
  | mouseDoubleClickEvent (button : MouseButton)
  deriving DecidableEq, Repr

/-- One call on the label. -/
def step (tk : Toolkit) (s : CElidingLabel) : Op → Option CElidingLabel
  | Op.setText t w => setText tk t w s
  | Op.setElideMode m w => setElideMode tk m w s
  | Op.resizeEvent w => resizeEvent tk w s
  | Op.mouseReleaseEvent b => some (mouseReleaseEvent b s)
  | Op.mouseDoubleClickEvent b => some (mouseDoubleClickEvent b s)

/-- A sequence of calls, in order, from a given state. -/
def run (tk : Toolkit) (s : CElidingLabel) : List Op → Option CElidingLabel
  | [] => some s
  | op :: ops => (step tk s op).bind fun s1 => run tk s1 ops

/-! ## Notions used to state the properties -/

/-- The characters of a text that lie outside `<...>` tags: a tag starts at a `<` and
extends to the next `>`; `inTag` tells whether the text starts inside a tag. -/
def outsideTags : Bool → QString → QString
  | _, [] => []
  | true, c :: rest => if c = tagClose then outsideTags false rest else outsideTags true rest
  | false, c :: rest => if c = tagOpen then outsideTags true rest else c :: outsideTags false rest

/-- The indices, counted from `i`, of the characters that lie outside `<...>` tags. -/
def outsidePositions : Bool → QString → Nat → List Nat
  | _, [], _ => []
  | true, c :: rest, i =>
    if c = tagClose then outsidePositions false rest (i + 1) else outsidePositions true rest (i + 1)
  | false, c :: rest, i =>
    if c = tagOpen then outsidePositions true rest (i + 1)
    else i :: outsidePositions false rest (i + 1)

/-- The text most recently passed to the constructor or to `setText`. -/
def lastText : QString → List Op → QString
  | t, [] => t
  | _, Op.setText t _ :: ops => lastText t ops
  | t, _ :: ops => lastText t ops

/-- The values carried by the `elidedChanged` emissions of a log, oldest first. -/
def elidedValues : List Signal → List Bool
  | [] => []
  | Signal.elidedChanged b :: rest => b :: elidedValues rest
  | _ :: rest => elidedValues rest

/-- A list of booleans alternates, beginning with `b`. -/
def alternates : Bool → List Bool → Bool
  | _, [] => true
  | b, x :: xs => (x == b) && alternates (!b) xs

/-- Every `setElideMode` call of a sequence asks for `ElideNone`. -/
def onlyElideNone : List Op → Bool
  | [] => true
  | Op.setElideMode m _ :: ops => decide (m = TextElideMode.ElideNone) && onlyElideNone ops
  | _ :: ops => onlyElideNone ops

/-! ## A concrete toolkit

A stand-in for the host toolkit with a fixed-pitch font: every character, the ellipsis
included, is one unit wide.  It is used to evaluate the widget on concrete inputs. -/

/-- Plain rendering of markup: tags are dropped and the entities `&amp;` and `&lt;` are
decoded; every other character is kept.  `skip` counts the characters of an entity that
are still to be dropped. -/
def renderPlain : Bool → Nat → QString → QString
  | _, _, [] => []
  | inTag, skip + 1, _ :: rest => renderPlain inTag skip rest
  | true, 0, c :: rest =>
    if c = tagClose then renderPlain false 0 rest else renderPlain true 0 rest
  | false, 0, c :: rest =>
    if c = tagOpen then renderPlain true 0 rest
    else if (utf16 ("&amp;")).isPrefixOf (c :: rest) then
      c :: renderPlain false 4 rest
    else if (utf16 ("&lt;")).isPrefixOf (c :: rest) then
      tagOpen :: renderPlain false 3 rest
    else c :: renderPlain false 0 rest

/-- Elision for the fixed-pitch font: text that fits, or has at most one character, is
returned unchanged; otherwise `width - 2` characters are kept next to the ellipsis. -/
def fixedPitchElided (txt : QString) (mode : TextElideMode) (width : Int) : QString :=
  if mode = TextElideMode.ElideNone ∨ (txt.length : Int) ≤ width ∨ txt.length ≤ 1 then txt
  else
    let keep := (width - 2).toNat
    match mode with
    | TextElideMode.ElideRight => txt.take keep ++ [ellipsis]
    | TextElideMode.ElideLeft => ellipsis :: txt.drop (txt.length - keep)
    | TextElideMode.ElideMiddle =>
      txt.take (keep / 2) ++ [ellipsis] ++ txt.drop (txt.length - (keep - keep / 2))
    | TextElideMode.ElideNone => txt

/-- The fixed-pitch toolkit: no margin, no indent, and a size hint of one unit per
character and one line. -/
def fixedPitch : Toolkit :=
  { toPlainText := renderPlain false 0
    elidedText := fixedPitchElided
    margin := 0
    indent := 0
    labelSizeHint := fun t => ((t.length : Int), 1) }

/-- A label with the given mode and text, as `setText` and `setElideMode` leave it when
nothing is elided. -/
def labelOf (mode : TextElideMode) (t : QString) : CElidingLabel :=
  { CElidingLabel.create t with ElideMode := mode }

/-- The label invariant: the hidden label holds the text, and a label that is not elided
displays the text. -/
def Consistent (s : CElidingLabel) : Prop :=
  s.fullText = s.Text ∧ (s.IsElided = false → s.labelText = s.Text)

/-- The invariant of the `elidedChanged` log: the emitted values alternate, beginning with
`true`, and the last one (`false` when there is none) is the current `IsElided`. -/
def LogAgrees (s : CElidingLabel) : Prop :=
  alternates true (elidedValues s.emitted) = true ∧
    (elidedValues s.emitted).getLastD false = s.IsElided

/-- A sequence of calls on a label constructed with the text `abcdef`: the label is
elided, gets a text with markup, is widened until the text fits, is clicked, and is
narrowed again. -/
def demoOps : List Op :=
  [Op.setElideMode TextElideMode.ElideRight 4, Op.setText (utf16 ("<b>Hello</b> World")) 9,
    Op.resizeEvent 20, Op.mouseReleaseEvent MouseButton.LeftButton, Op.resizeEvent 9]

/-- The state of the label after `demoOps`. -/
def demoFinal : CElidingLabel :=
  { ElideMode := TextElideMode.ElideRight
    Text := utf16 ("<b>Hello</b> World")
    IsElided := true
    labelText := utf16 ("<b>Hello</b> W…")
    fullText := utf16 ("<b>Hello</b> World")
    emitted := [Signal.elidedChanged true, Signal.elidedChanged false, Signal.clicked,
      Signal.elidedChanged true] }

/-- A sequence of calls that never leaves the mode `ElideNone`. -/
def plainOps : List Op :=
  [Op.setText (utf16 ("xy")) 1, Op.resizeEvent 1, Op.setElideMode TextElideMode.ElideNone 1]

/-- The state of the label after `plainOps`. -/
def plainFinal : CElidingLabel :=
  CElidingLabel.create (utf16 ("xy"))

/-- A label is elided and the mode is then set back to `ElideNone`. -/
def backToNoneOps : List Op :=
  [Op.setElideMode TextElideMode.ElideRight 4, Op.setElideMode TextElideMode.ElideNone 4]

/-- The state of the label after `backToNoneOps`. -/
def backToNoneFinal : CElidingLabel :=
  { ElideMode := TextElideMode.ElideNone
    Text := utf16 ("abcdef")
    IsElided := true
    labelText := utf16 ("ab…")
    fullText := utf16 ("abcdef")
    emitted := [Signal.elidedChanged true] }

/-- A label in mode `ElideRight` whose text has markup. -/
def markupLabel : CElidingLabel :=
  labelOf TextElideMode.ElideRight (utf16 ("<b>Hello</b> World"))

/-- The label `markupLabel` after an elide pass at width 9. -/
def markupElided : CElidingLabel :=
  { markupLabel with
    IsElided := true
    labelText := utf16 ("<b>Hello</b> W…")
    emitted := [Signal.elidedChanged true] }

/-- A label whose text has a `>` that closes no tag. -/
def strayLabel : CElidingLabel :=
  labelOf TextElideMode.ElideRight (utf16 ("a>b<i>cd</i>"))

/-- A label whose text starts with an entity. -/
def entityLabel : CElidingLabel :=
  labelOf TextElideMode.ElideRight (utf16 ("&lt;x"))

/-- A label whose text has an entity in the middle. -/
def ampersandLabel : CElidingLabel :=
  labelOf TextElideMode.ElideRight (utf16 ("Tom &amp; Jerry"))

/-- A label in mode `ElideLeft` whose text has markup. -/
def leftLabel : CElidingLabel :=
  labelOf TextElideMode.ElideLeft (utf16 ("<b>abcdef</b>"))

/-- A label whose text has markup and whose plain rendering starts with an ellipsis. -/
def ellipsisLabel : CElidingLabel :=
  labelOf TextElideMode.ElideRight (utf16 ("<b>…x</b>"))

/-! ## Lemmas on the elide pass -/

theorem isModeElideNone_eq_true (s : CElidingLabel) :
    isModeElideNone s = true ↔ s.ElideMode = TextElideMode.ElideNone := by
  unfold isModeElideNone
  rw [decide_eq_true_iff]
  exact eq_comm

theorem isModeElideNone_eq_false (s : CElidingLabel) :
    isModeElideNone s = false ↔ s.ElideMode ≠ TextElideMode.ElideNone := by
  rw [Ne, ← isModeElideNone_eq_true]
  cases isModeElideNone s <;> simp

/-- In mode `ElideNone` the elide pass returns at once and changes nothing. -/
theorem elideText_none (tk : Toolkit) (w : Int) (s : CElidingLabel)
    (h : s.ElideMode = TextElideMode.ElideNone) : elideText tk w s = some s := by
  unfold elideText
  rw [(isModeElideNone_eq_true s).2 h]
  rfl

/-- The fields that an elide pass leaves alone, and the two that it computes. -/
theorem elideText_fields (tk : Toolkit) (w : Int) (s r : CElidingLabel)
    (h : elideText tk w s = some r) :
    r.ElideMode = s.ElideMode ∧ r.Text = s.Text ∧ r.fullText = s.fullText ∧
      r.emitted = (if r.IsElided ≠ s.IsElided then s.emitted ++ [Signal.elidedChanged r.IsElided]
        else s.emitted) ∧
      (r.IsElided = false → s.ElideMode ≠ TextElideMode.ElideNone → r.labelText = s.Text) ∧
      (s.ElideMode = TextElideMode.ElideNone → r = s) := by
  by_cases hm : s.ElideMode = TextElideMode.ElideNone
  · rw [elideText_none tk w s hm] at h
    cases h
    simp [hm]
  · unfold elideText at h
    rw [(isModeElideNone_eq_false s).2 hm] at h
    simp only [Bool.false_eq_true, if_false, Option.bind_eq_some, Option.map_eq_some'] at h
    obtain ⟨str, -, shown, hshown, rfl⟩ := h
    refine ⟨rfl, rfl, rfl, rfl, ?_, fun h0 => absurd h0 hm⟩
    intro he _
    simp only at he
    rw [he] at hshown
    simpa using hshown.symm

/-! ## Lemmas on single calls -/

theorem elidedValues_append (a b : List Signal) :
    elidedValues (a ++ b) = elidedValues a ++ elidedValues b := by
  induction a with
  | nil => rfl
  | cons x xs ih => cases x <;> simp [elidedValues, ih]

/-- What `setText` does to the fields of the label. -/
theorem setText_fields (tk : Toolkit) (t : QString) (w : Int) (s r : CElidingLabel)
    (h : setText tk t w s = some r) :
    r.ElideMode = s.ElideMode ∧ r.Text = t ∧ r.fullText = t ∧
      r.emitted = (if r.IsElided ≠ s.IsElided then s.emitted ++ [Signal.elidedChanged r.IsElided]
        else s.emitted) ∧
      (r.IsElided = false → r.labelText = t) ∧
      (s.ElideMode = TextElideMode.ElideNone → r.IsElided = s.IsElided ∧ r.labelText = t) := by
  unfold setText at h
  by_cases hm : s.ElideMode = TextElideMode.ElideNone
  · have hn : isModeElideNone { s with fullText := t, Text := t } = true :=
      (isModeElideNone_eq_true _).2 hm
    simp only [hn, if_true, Option.some.injEq] at h
    subst h
    simp
  · have hn : isModeElideNone { s with fullText := t, Text := t } = false :=
      (isModeElideNone_eq_false _).2 hm
    simp only [hn, Bool.false_eq_true, if_false] at h
    obtain ⟨h1, h2, h3, h4, h5, -⟩ := elideText_fields tk w _ r h
    exact ⟨h1, h2, h3, h4, fun he => h5 he hm, fun h0 => absurd h0 hm⟩

/-- What `setElideMode` does to the fields of the label. -/
theorem setElideMode_fields (tk : Toolkit) (m : TextElideMode) (w : Int) (s r : CElidingLabel)
    (h : setElideMode tk m w s = some r) :
    r.ElideMode = m ∧ r.Text = s.Text ∧ r.fullText = s.fullText ∧
      r.emitted = (if r.IsElided ≠ s.IsElided then s.emitted ++ [Signal.elidedChanged r.IsElided]
        else s.emitted) ∧
      (r.IsElided = false → m ≠ TextElideMode.ElideNone → r.labelText = s.Text) ∧
      (m = TextElideMode.ElideNone → r.IsElided = s.IsElided ∧ r.labelText = s.labelText) := by
  unfold setElideMode at h
  obtain ⟨h1, h2, h3, h4, h5, h6⟩ := elideText_fields tk w _ r h
  refine ⟨h1, h2, h3, h4, h5, fun hm => ?_⟩
  rw [h6 hm]
  exact ⟨rfl, rfl⟩

/-- What `resizeEvent` does to the fields of the label. -/
theorem resizeEvent_fields (tk : Toolkit) (w : Int) (s r : CElidingLabel)
    (h : resizeEvent tk w s = some r) :
    r.ElideMode = s.ElideMode ∧ r.Text = s.Text ∧ r.fullText = s.fullText ∧
      r.emitted = (if r.IsElided ≠ s.IsElided then s.emitted ++ [Signal.elidedChanged r.IsElided]
        else s.emitted) ∧
      (r.IsElided = false → s.ElideMode ≠ TextElideMode.ElideNone → r.labelText = s.Text) ∧
      (s.ElideMode = TextElideMode.ElideNone → r = s) := by
  unfold resizeEvent at h
  by_cases hm : s.ElideMode = TextElideMode.ElideNone
  · rw [(isModeElideNone_eq_true s).2 hm] at h
    simp only [Bool.not_true, Bool.false_eq_true, if_false, Option.some.injEq] at h
    subst h
    simp [hm]
  · rw [(isModeElideNone_eq_false s).2 hm] at h
    simp only [Bool.not_false, if_true] at h
    exact elideText_fields tk w s r h

/-- One call: the text, the hidden label, the invariant and the `elidedChanged` log. -/
theorem step_fields (tk : Toolkit) (s r : CElidingLabel) (op : Op)
    (h : step tk s op = some r) :
    r.Text = lastText s.Text [op] ∧ (Consistent s → Consistent r) ∧
      elidedValues r.emitted =
        elidedValues s.emitted ++ (if r.IsElided ≠ s.IsElided then [r.IsElided] else []) ∧
      (onlyElideNone [op] = true → s.ElideMode = TextElideMode.ElideNone →
        r.ElideMode = TextElideMode.ElideNone ∧ r.IsElided = s.IsElided) := by
  cases op with
  | setText t w =>
    obtain ⟨h1, h2, h3, h4, h5, h6⟩ := setText_fields tk t w s r h
    refine ⟨h2, fun _ => ⟨h3.trans h2.symm, fun he => (h5 he).trans h2.symm⟩, ?_,
      fun _ hm => ⟨h1.trans hm, (h6 hm).1⟩⟩
    rw [h4]
    split <;> simp [elidedValues_append, elidedValues]
  | setElideMode m w =>
    obtain ⟨h1, h2, h3, h4, h5, h6⟩ := setElideMode_fields tk m w s r h
    refine ⟨h2, fun hc => ⟨(h3.trans hc.1).trans h2.symm, fun he => ?_⟩, ?_, fun hn _ => ?_⟩
    · by_cases hm : m = TextElideMode.ElideNone
      · rw [(h6 hm).2, h2]
        exact hc.2 ((h6 hm).1 ▸ he)
      · exact (h5 he hm).trans h2.symm
    · rw [h4]
      split <;> simp [elidedValues_append, elidedValues]
    · have hm : m = TextElideMode.ElideNone := by simpa [onlyElideNone] using hn
      exact ⟨h1.trans hm, (h6 hm).1⟩
  | resizeEvent w =>
    obtain ⟨h1, h2, h3, h4, h5, h6⟩ := resizeEvent_fields tk w s r h
    refine ⟨h2, fun hc => ⟨(h3.trans hc.1).trans h2.symm, fun he => ?_⟩, ?_, fun _ hm => ?_⟩
    · by_cases hm : s.ElideMode = TextElideMode.ElideNone
      · rw [h6 hm]
        exact hc.2 (h6 hm ▸ he)
      · exact (h5 he hm).trans h2.symm
    · rw [h4]
      split <;> simp [elidedValues_append, elidedValues]
    · rw [h6 hm]
      exact ⟨hm, rfl⟩
  | mouseReleaseEvent b =>
    simp only [step, Option.some.injEq] at h
    subst h
    unfold mouseReleaseEvent
    split <;> simp [lastText, Consistent, elidedValues_append, elidedValues]
  | mouseDoubleClickEvent b =>
    simp only [step, Option.some.injEq] at h
    subst h
    simp [mouseDoubleClickEvent, lastText, Consistent, elidedValues_append, elidedValues]

/-! ## Lemmas on sequences of calls -/

theorem alternates_snoc (l : List Bool) (b e : Bool) (h : alternates b l = true)
    (hl : l.getLastD (!b) = e) : alternates b (l ++ [!e]) = true := by
  induction l generalizing b with
  | nil =>
    simp only [List.getLastD_nil] at hl
    subst hl
    simp [alternates]
  | cons x xs ih =>
    simp only [alternates, Bool.and_eq_true, beq_iff_eq] at h
    obtain ⟨rfl, h2⟩ := h
    simp only [List.cons_append, alternates, beq_self_eq_true, Bool.true_and]
    apply ih _ h2
    rw [Bool.not_not]
    rw [List.getLastD_cons] at hl
    exact hl

theorem lastText_cons (t : QString) (op : Op) (ops : List Op) :
    lastText t (op :: ops) = lastText (lastText t [op]) ops := by
  cases op <;> rfl

theorem onlyElideNone_cons (op : Op) (ops : List Op) :
    onlyElideNone (op :: ops) = (onlyElideNone [op] && onlyElideNone ops) := by
  cases op <;> simp [onlyElideNone]

theorem step_logAgrees (tk : Toolkit) (s r : CElidingLabel) (op : Op)
    (h : step tk s op = some r) (hs : LogAgrees s) : LogAgrees r := by
  obtain ⟨-, -, h3, -⟩ := step_fields tk s r op h
  obtain ⟨ha, hl⟩ := hs
  unfold LogAgrees
  rw [h3]
  by_cases hc : r.IsElided = s.IsElided
  · simp only [ne_eq, hc, not_true_eq_false, if_false, List.append_nil]
    exact ⟨ha, hl⟩
  · have hr : r.IsElided = !s.IsElided := by
      cases hr : r.IsElided <;> cases hs : s.IsElided <;> simp_all
    simp only [ne_eq, hc, not_false_eq_true, if_true, List.getLastD_concat, and_true]
    rw [hr]
    exact alternates_snoc _ true _ ha (by simpa using hl)

/-- A sequence of calls: the text, the two invariants, and the mode when no call asks for
a mode other than `ElideNone`. -/
theorem run_fields (tk : Toolkit) (ops : List Op) (s r : CElidingLabel)
    (h : run tk s ops = some r) :
    r.Text = lastText s.Text ops ∧ (Consistent s → Consistent r) ∧
      (LogAgrees s → LogAgrees r) ∧
      (onlyElideNone ops = true → s.ElideMode = TextElideMode.ElideNone →
        r.ElideMode = TextElideMode.ElideNone ∧ r.IsElided = s.IsElided) := by
  induction ops generalizing s with
  | nil =>
    simp only [run, Option.some.injEq] at h
    subst h
    exact ⟨rfl, id, id, fun _ hm => ⟨hm, rfl⟩⟩
  | cons op ops ih =>
    simp only [run, Option.bind_eq_some] at h
    obtain ⟨s1, hstep, hrun⟩ := h
    obtain ⟨i1, i2, i3, i4⟩ := ih s1 hrun
    obtain ⟨f1, f2, -, f4⟩ := step_fields tk s s1 op hstep
    refine ⟨?_, fun hc => i2 (f2 hc), fun hl => i3 (step_logAgrees tk s s1 op hstep hl), ?_⟩
    · rw [lastText_cons, ← f1]
      exact i1
    · intro hn hm
      rw [onlyElideNone_cons, Bool.and_eq_true] at hn
      obtain ⟨g1, g2⟩ := f4 hn.1 hm
      obtain ⟨k1, k2⟩ := i4 hn.2 g1
      exact ⟨k1, k2.trans g2⟩

/-! ## The elide pass when the text fits -/

/-- C2: in a mode other than `ElideNone`, when the toolkit returns the plain rendering of
the text unchanged, the elide pass completes, the label displays the full original text
with its markup, and `isElided()` is false. -/
theorem C2_fitting_text_is_shown_in_full (tk : Toolkit) (w : Int) (s : CElidingLabel)
    (hm : elideMode s ≠ TextElideMode.ElideNone)
    (hfit : tk.elidedText (tk.toPlainText (text s)) (elideMode s)
      (w - tk.margin * 2 - tk.indent) = tk.toPlainText (text s)) :
    ∃ r, elideText tk w s = some r ∧ r.labelText = text s ∧ isElided r = false ∧
      text r = text s ∧ elideMode r = elideMode s := by
  unfold elideMode text at *
  have hp : elidedPlain tk w s = some (tk.toPlainText s.Text) := by
    unfold elidedPlain
    simp only [hfit]
    split
    · next h1 => simp [at0, h1]
    · rfl
  unfold elideText
  rw [(isModeElideNone_eq_false s).2 hm]
  simp [hp, isElided]

theorem C2_fitting_text_is_shown_in_full_witness :
    ∃ r, elideText fixedPitch 20 (labelOf TextElideMode.ElideRight (utf16 ("<b>Hello</b> World")))
        = some r ∧
      r.labelText = utf16 ("<b>Hello</b> World") ∧ isElided r = false ∧
      text r = utf16 ("<b>Hello</b> World") ∧ elideMode r = TextElideMode.ElideRight :=
  C2_fitting_text_is_shown_in_full fixedPitch 20
    (labelOf TextElideMode.ElideRight (utf16 ("<b>Hello</b> World"))) (by decide) (by decide)

/-! ## Mouse events -/

/-- C5: `mouseReleaseEvent` emits `clicked` exactly once when the released button is the
left button and emits nothing for any other button; `mouseDoubleClickEvent` emits
`doubleClicked` exactly once whatever the button; neither touches the rest of the label. -/
theorem C5_mouse_events_emit_clicked_and_doubleClicked (b : MouseButton) (s : CElidingLabel) :
    (mouseReleaseEvent b s).emitted =
        s.emitted ++ (if b = MouseButton.LeftButton then [Signal.clicked] else []) ∧
      (mouseDoubleClickEvent b s).emitted = s.emitted ++ [Signal.doubleClicked] ∧
      { mouseReleaseEvent b s with emitted := s.emitted } = s ∧
      { mouseDoubleClickEvent b s with emitted := s.emitted } = s := by
  unfold mouseReleaseEvent mouseDoubleClickEvent
  by_cases hb : b = MouseButton.LeftButton <;> simp [hb]

/-! ## Invariants of the reachable states -/

/-- C4: in every state reached from either constructor by a sequence of `setText`,
`setElideMode`, `resizeEvent` and mouse events, the hidden full-text label holds exactly
`text()`, `text()` is the string most recently passed to the constructor or to `setText`,
and `sizeHint()` is the size hint of a label holding that unelided text. -/
theorem C4_size_hint_is_that_of_the_full_text (tk : Toolkit) (t0 : QString) (ops : List Op)
    (s : CElidingLabel)
    (h : run tk (CElidingLabel.create t0) ops = some s ∨
      (t0 = [] ∧ run tk CElidingLabel.createEmpty ops = some s)) :
    s.fullText = text s ∧ text s = lastText t0 ops ∧
      sizeHint tk s = tk.labelSizeHint (lastText t0 ops) := by
  have h1 : run tk (CElidingLabel.create t0) ops = some s := by
    rcases h with h | ⟨rfl, h⟩
    · exact h
    · exact h
  obtain ⟨f1, f2, -, -⟩ := run_fields tk ops _ s h1
  have hc : Consistent s := f2 ⟨rfl, fun _ => rfl⟩
  have ht : s.Text = lastText t0 ops := f1
  refine ⟨hc.1, ht, ?_⟩
  unfold sizeHint
  rw [hc.1, ht]

/-- C10: every call appends one `elidedChanged` carrying the new value when it changes
`isElided()` and none otherwise; hence, in every state reached from construction, the
emitted values alternate beginning with `true`, and the last emitted value (`false` when
none was emitted) is the current `isElided()`. -/
theorem C10_elidedChanged_tracks_isElided (tk : Toolkit) (t0 : QString) (ops : List Op)
    (s : CElidingLabel) (h : run tk (CElidingLabel.create t0) ops = some s) :
    (∀ s1 op s2, step tk s1 op = some s2 →
        elidedValues s2.emitted = elidedValues s1.emitted ++
          (if isElided s2 ≠ isElided s1 then [isElided s2] else [])) ∧
      alternates true (elidedValues s.emitted) = true ∧
      (elidedValues s.emitted).getLastD false = isElided s := by
  refine ⟨fun s1 op s2 hstep => (step_fields tk s1 s2 op hstep).2.2.1, ?_⟩
  obtain ⟨-, -, f3, -⟩ := run_fields tk ops _ s h
  exact f3 ⟨rfl, rfl⟩

/-- C8, amended: in every state reached from a constructor by a sequence of `setText`,
`setElideMode`, `resizeEvent` and mouse events, a label whose `isElided()` is false
displays `text()`; and as long as no `setElideMode` call has asked for a mode other than
`ElideNone`, the mode is `ElideNone`, `isElided()` is false and the label displays
`text()`. -/
theorem C8_unelided_label_displays_text (tk : Toolkit) (t0 : QString) (ops : List Op)
    (s : CElidingLabel) (h : run tk (CElidingLabel.create t0) ops = some s) :
    (isElided s = false → s.labelText = text s) ∧
      (onlyElideNone ops = true →
        elideMode s = TextElideMode.ElideNone ∧ isElided s = false ∧ s.labelText = text s) := by
  obtain ⟨-, f2, -, f4⟩ := run_fields tk ops _ s h
  have hc : Consistent s := f2 ⟨rfl, fun _ => rfl⟩
  refine ⟨hc.2, fun hn => ?_⟩
  obtain ⟨g1, g2⟩ := f4 hn rfl
  exact ⟨g1, g2, hc.2 g2⟩

theorem C4_size_hint_is_that_of_the_full_text_witness :
    run fixedPitch (CElidingLabel.create (utf16 ("abcdef"))) demoOps = some demoFinal ∧
      (demoFinal.fullText = text demoFinal ∧
        text demoFinal = lastText (utf16 ("abcdef")) demoOps ∧
        sizeHint fixedPitch demoFinal =
          fixedPitch.labelSizeHint (lastText (utf16 ("abcdef")) demoOps)) :=
  ⟨by decide, C4_size_hint_is_that_of_the_full_text fixedPitch (utf16 ("abcdef")) demoOps
    demoFinal (Or.inl (by decide))⟩

theorem C10_elidedChanged_tracks_isElided_witness :
    run fixedPitch (CElidingLabel.create (utf16 ("abcdef"))) demoOps = some demoFinal ∧
      elidedValues demoFinal.emitted = [true, false, true] ∧
      alternates true (elidedValues demoFinal.emitted) = true ∧
      (elidedValues demoFinal.emitted).getLastD false = isElided demoFinal :=
  ⟨by decide, by decide,
    (C10_elidedChanged_tracks_isElided fixedPitch (utf16 ("abcdef")) demoOps demoFinal
      (by decide)).2⟩

theorem C8_unelided_label_displays_text_witness :
    run fixedPitch (CElidingLabel.create (utf16 ("abcdef"))) plainOps = some plainFinal ∧
      onlyElideNone plainOps = true ∧
      elideMode plainFinal = TextElideMode.ElideNone ∧ isElided plainFinal = false ∧
      plainFinal.labelText = text plainFinal :=
  ⟨by decide, by decide,
    (C8_unelided_label_displays_text fixedPitch (utf16 ("abcdef")) plainOps plainFinal
      (by decide)).2 (by decide)⟩

/-- C8 as stated fails: after the label has been elided, `setElideMode(ElideNone)` returns
from the elide pass at once, so the mode is `ElideNone` while `isElided()` is still true
and the label still displays the elided text. -/
theorem C8_stale_elision_after_setElideMode_none :
    run fixedPitch (CElidingLabel.create (utf16 ("abcdef"))) backToNoneOps
        = some backToNoneFinal ∧
      elideMode backToNoneFinal = TextElideMode.ElideNone ∧
      isElided backToNoneFinal = true ∧
      backToNoneFinal.labelText = utf16 ("ab…") ∧
      backToNoneFinal.labelText ≠ text backToNoneFinal := by
  decide

/-! ## Resize events -/

/-- C6: in a mode other than `ElideNone`, `resizeEvent` is an elide pass at the new width
of the event; the displayed text and `isElided()` it leaves depend on the state only
through `text()` and the mode; and a second `resizeEvent` to the same width leaves the
whole label, its emission log included, unchanged. -/
theorem C6_resize_is_an_elide_pass_and_can_be_repeated (tk : Toolkit) (w : Int)
    (s : CElidingLabel) (hm : elideMode s ≠ TextElideMode.ElideNone) :
    resizeEvent tk w s = elideText tk w s ∧
      (∀ s2, text s2 = text s → elideMode s2 = elideMode s →
        (resizeEvent tk w s2).map (fun r => (r.labelText, isElided r)) =
          (resizeEvent tk w s).map (fun r => (r.labelText, isElided r))) ∧
      (∀ r, resizeEvent tk w s = some r → resizeEvent tk w r = some r) := by
  unfold elideMode text at *
  have key : ∀ x : CElidingLabel, x.ElideMode ≠ TextElideMode.ElideNone →
      resizeEvent tk w x = elideText tk w x := by
    intro x hx
    unfold resizeEvent
    rw [(isModeElideNone_eq_false x).2 hx]
    rfl
  refine ⟨key s hm, ?_, ?_⟩
  · intro s2 ht hmode
    rw [key s hm, key s2 (hmode ▸ hm)]
    unfold elideText
    rw [(isModeElideNone_eq_false s).2 hm, (isModeElideNone_eq_false s2).2 (hmode ▸ hm)]
    simp only [Bool.false_eq_true, if_false]
    have he : elidedPlain tk w s2 = elidedPlain tk w s := by
      unfold elidedPlain
      rw [ht, hmode]
    rw [he, ht]
    cases elidedPlain tk w s with
    | none => rfl
    | some str =>
      simp only [Option.some_bind, Option.map_map]
      rfl
  · intro r hr
    rw [key s hm] at hr
    have hm1 : r.ElideMode ≠ TextElideMode.ElideNone :=
      (elideText_fields tk w s r hr).1 ▸ hm
    rw [key r hm1]
    unfold elideText at hr ⊢
    rw [(isModeElideNone_eq_false s).2 hm] at hr
    rw [(isModeElideNone_eq_false r).2 hm1]
    simp only [Bool.false_eq_true, if_false, Option.bind_eq_some, Option.map_eq_some'] at hr ⊢
    obtain ⟨str, hstr, shown, hshown, rfl⟩ := hr
    refine ⟨str, hstr, shown, hshown, ?_⟩
    simp

theorem C6_resize_is_an_elide_pass_and_can_be_repeated_witness :
    resizeEvent fixedPitch 9 demoFinal = some demoFinal ∧
      resizeEvent fixedPitch 9 { demoFinal with IsElided := false, labelText := [] }
        = some { demoFinal with
            emitted := demoFinal.emitted ++ [Signal.elidedChanged true] } :=
  ⟨(C6_resize_is_an_elide_pass_and_can_be_repeated fixedPitch 9 demoFinal (by decide)).2.2
      demoFinal (by decide), by decide⟩

/-! ## Lemmas on the markup search -/

theorem outsideTags_nil (b : Bool) : outsideTags b [] = [] := by
  cases b <;> rfl

/-- The value of `j` after the loop is `-1` or not negative. -/
theorem findEnd_range (str : QString) (T : QString) (i : Nat) (b : Bool) (j : Nat) (k : Int)
    (h : findEnd str T i b j = some k) : k = -1 ∨ 0 ≤ k := by
  induction T generalizing i b j with
  | nil =>
    simp only [findEnd, Option.some.injEq] at h
    subst h
    exact Or.inr (Int.ofNat_nonneg j)
  | cons c rest ih =>
    unfold findEnd at h
    split at h
    · exact ih _ _ _ h
    · split at h
      · exact ih _ _ _ h
      · split at h
        · exact ih _ _ _ h
        · split at h
          · exact absurd h (by simp)
          · split at h
            · split at h
              · simp only [Option.some.injEq] at h
                subst h
                exact Or.inr (Int.ofNat_nonneg i)
              · exact ih _ _ _ h
            · simp only [Option.some.injEq] at h
              exact Or.inl h.symm

/-- The loop reads `str[j]` inside `str` as long as it starts with `j` inside `str`. -/
theorem findEnd_isSome (str : QString) (T : QString) (i : Nat) (b : Bool) (j : Nat)
    (hj : j < str.length) : ∃ k, findEnd str T i b j = some k := by
  induction T generalizing i b j with
  | nil => exact ⟨_, rfl⟩
  | cons c rest ih =>
    unfold findEnd
    split
    · exact ih _ _ _ hj
    · split
      · exact ih _ _ _ hj
      · split
        · exact ih _ _ _ hj
        · rw [List.get?_eq_getElem?, List.getElem?_eq_getElem hj]
          simp only
          split
          · split
            · exact ⟨_, rfl⟩
            · next hne => exact ih _ _ _ (by omega)
          · exact ⟨_, rfl⟩

/-- The search finds a string free of `>` that is a leading part of the characters outside
tags: it stops at the index of the last of these characters. -/
theorem findEnd_finds_leading_part (p : QString) (hgt : tagClose ∉ p) (T : QString) (i : Nat)
    (b : Bool)
    (j : Nat) (hj : j < p.length) (hp : p.drop j <+: outsideTags b T) :
    ∃ k, (outsidePositions b T i).get? (p.length - 1 - j) = some k ∧
      findEnd p T i b j = some (Int.ofNat k) ∧ i ≤ k ∧
      outsideTags b (T.take (k + 1 - i)) = p.drop j := by
  induction T generalizing i b j with
  | nil =>
    rw [outsideTags_nil, List.prefix_nil, List.drop_eq_nil_iff] at hp
    omega
  | cons c rest ih =>
    have hdrop : p.drop j = p[j] :: p.drop (j + 1) := List.drop_eq_getElem_cons hj
    have htake : ∀ k, i + 1 ≤ k →
        (c :: rest).take (k + 1 - i) = c :: rest.take (k + 1 - (i + 1)) := by
      intro k hk
      have : k + 1 - i = (k + 1 - (i + 1)) + 1 := by omega
      rw [this, List.take_succ_cons]
    cases b with
    | true =>
      by_cases hc : c = tagClose
      · have hlt : ¬ c = tagOpen := by rw [hc]; decide
        have hp1 : p.drop j <+: outsideTags false rest := by simpa [outsideTags, hc] using hp
        obtain ⟨k, h1, h2, h3, h4⟩ := ih (i + 1) false j hj hp1
        refine ⟨k, ?_, ?_, by omega, ?_⟩
        · simpa [outsidePositions, hc] using h1
        · unfold findEnd
          simpa [hc, hlt] using h2
        · rw [htake k h3]
          simpa [outsideTags, hc] using h4
      · have hp1 : p.drop j <+: outsideTags true rest := by simpa [outsideTags, hc] using hp
        obtain ⟨k, h1, h2, h3, h4⟩ := ih (i + 1) true j hj hp1
        refine ⟨k, ?_, ?_, by omega, ?_⟩
        · simpa [outsidePositions, hc] using h1
        · unfold findEnd
          by_cases hlt : c = tagOpen <;> simpa [hc, hlt] using h2
        · rw [htake k h3]
          simpa [outsideTags, hc] using h4
    | false =>
      by_cases hlt : c = tagOpen
      · have hp1 : p.drop j <+: outsideTags true rest := by simpa [outsideTags, hlt] using hp
        obtain ⟨k, h1, h2, h3, h4⟩ := ih (i + 1) true j hj hp1
        refine ⟨k, ?_, ?_, by omega, ?_⟩
        · simpa [outsidePositions, hlt] using h1
        · unfold findEnd
          simpa [hlt] using h2
        · rw [htake k h3]
          simpa [outsideTags, hlt] using h4
      · have hp1 : p[j] :: p.drop (j + 1) <+: c :: outsideTags false rest := by
          rw [← hdrop]
          simpa [outsideTags, hlt] using hp
        rw [List.cons_prefix_cons] at hp1
        obtain ⟨hpc, hp2⟩ := hp1
        have hc : ¬ c = tagClose := by
          intro hc
          apply hgt
          rw [← hc, ← hpc]
          exact List.getElem_mem hj
        by_cases hend : j + 1 = p.length
        · refine ⟨i, ?_, ?_, le_refl i, ?_⟩
          · have : p.length - 1 - j = 0 := by omega
            simp [outsidePositions, hlt, this]
          · unfold findEnd
            simp [hlt, hc, List.getElem?_eq_getElem hj, hpc, hend]
          · have h0 : p.drop (j + 1) = [] := by
              rw [List.drop_eq_nil_iff]
              omega
            have : i + 1 - i = 1 := by omega
            rw [this, hdrop, h0, hpc]
            simp [outsideTags, hlt]
        · obtain ⟨k, h1, h2, h3, h4⟩ := ih (i + 1) false (j + 1) (by omega) hp2
          refine ⟨k, ?_, ?_, by omega, ?_⟩
          · have : p.length - 1 - j = (p.length - 1 - (j + 1)) + 1 := by omega
            rw [this]
            simpa [outsidePositions, hlt] using h1
          · unfold findEnd
            simp [hlt, hc, List.getElem?_eq_getElem hj, hpc, hend]
            exact h2
          · rw [htake k h3, hdrop, ← h4, hpc]
            simp [outsideTags, hlt]

/-- The elide pass when the elided plain text differs from the plain text. -/
theorem elideText_of_elided (tk : Toolkit) (w : Int) (s : CElidingLabel) (str : QString)
    (hm : s.ElideMode ≠ TextElideMode.ElideNone) (hstr : elidedPlain tk w s = some str)
    (hne : str ≠ tk.toPlainText s.Text) :
    elideText tk w s = (elidedDisplay s.Text (tk.toPlainText s.Text) str).map fun shown =>
      { s with
        IsElided := true
        emitted := if true ≠ s.IsElided then s.emitted ++ [Signal.elidedChanged true]
                   else s.emitted
        labelText := shown } := by
  unfold elideText
  rw [(isModeElideNone_eq_false s).2 hm]
  simp [hstr, hne]

theorem elidedPlain_of_ne (tk : Toolkit) (w : Int) (s : CElidingLabel)
    (h : tk.elidedText (tk.toPlainText s.Text) s.ElideMode (w - tk.margin * 2 - tk.indent)
      ≠ [ellipsis]) :
    elidedPlain tk w s =
      some (tk.elidedText (tk.toPlainText s.Text) s.ElideMode (w - tk.margin * 2 - tk.indent)) := by
  unfold elidedPlain
  simp [h]

/-- The string searched in the markup is not empty when the elided plain text is neither
empty nor a lone ellipsis. -/
theorem searched_length_pos (str : QString) (h0 : str ≠ []) (h1 : str ≠ [ellipsis]) :
    0 < (if endsWithEllipsis str then str.dropLast else str).length := by
  split
  · next he =>
    rw [List.length_dropLast]
    have h2 : str.length ≠ 1 := by
      intro h2
      obtain ⟨c, rfl⟩ := List.length_eq_one.1 h2
      simp [endsWithEllipsis] at he
      exact h1 (by rw [he])
    have h3 := List.length_pos.2 h0
    omega
  · exact List.length_pos.2 h0

/-- The elide pass reads inside the strings when the toolkit returns the empty string
exactly for empty plain text and the plain text does not start with an ellipsis. -/
theorem elideText_completes (tk : Toolkit) (w : Int) (s : CElidingLabel)
    (hempty : tk.elidedText (tk.toPlainText s.Text) s.ElideMode
      (w - tk.margin * 2 - tk.indent) = [] ↔ tk.toPlainText s.Text = [])
    (hhead : (tk.toPlainText s.Text).head? ≠ some ellipsis) :
    ∃ r, elideText tk w s = some r := by
  by_cases hm : s.ElideMode = TextElideMode.ElideNone
  · exact ⟨s, elideText_none tk w s hm⟩
  · have hstr : ∃ str, elidedPlain tk w s = some str ∧ str ≠ [ellipsis] ∧
        (str = [] → tk.toPlainText s.Text = []) := by
      unfold elidedPlain
      simp only
      split
      · next h1 =>
        have hpl : tk.toPlainText s.Text ≠ [] := by
          intro h0
          rw [hempty.2 h0] at h1
          exact absurd h1 (by simp)
        obtain ⟨c, rest, hc⟩ := List.exists_cons_of_ne_nil hpl
        rw [hc] at hhead ⊢
        refine ⟨[c], by simp [at0], ?_, by simp⟩
        intro h2
        apply hhead
        simp only [List.cons.injEq, and_true] at h2
        simp [h2]
      · next h1 => exact ⟨_, rfl, h1, hempty.1⟩
    obtain ⟨str, hstr, hne1, hnil⟩ := hstr
    by_cases hne : str = tk.toPlainText s.Text
    · unfold elideText
      rw [(isModeElideNone_eq_false s).2 hm]
      simp [hstr, hne]
    · rw [elideText_of_elided tk w s _ hm hstr hne]
      have hs0 : str ≠ [] := fun h0 => hne (by rw [h0, hnil h0])
      have hlen := searched_length_pos str hs0 hne1
      have hd : ∃ shown, elidedDisplay s.Text (tk.toPlainText s.Text) str = some shown := by
        unfold elidedDisplay
        by_cases hmk : tk.toPlainText s.Text = s.Text
        · exact ⟨str, by simp [hmk]⟩
        · obtain ⟨k, hk⟩ := findEnd_isSome _ s.Text 0 false 0 hlen
          simp only [ne_eq, hmk, not_false_eq_true, if_true, hk, Option.map_some']
          exact ⟨_, rfl⟩
      obtain ⟨shown, hd⟩ := hd
      rw [hd]
      exact ⟨_, rfl⟩

/-- The fixed-pitch toolkit returns the empty string exactly for empty text. -/
theorem fixedPitchElided_eq_nil (txt : QString) (mode : TextElideMode) (width : Int) :
    fixedPitchElided txt mode width = [] ↔ txt = [] := by
  unfold fixedPitchElided
  split
  · rfl
  · next h =>
    have hne : txt ≠ [] := by
      intro h0
      apply h
      simp [h0]
    cases mode <;> simp [hne]

/-! ## The elide pass on text with markup -/

/-- C3, amended: for a text `T` with markup, when the toolkit returns `p ++ "…"`, different
from the plain rendering, with `p` non-empty, free of `>` and a leading part of the
characters of `T` outside `<...>` tags, the elide pass completes and displays
`T.left(k+1) ++ "…"`, where `k` is the index in `T` of the `|p|`-th character outside
tags; `isElided()` is true, the characters outside tags of `T.left(k+1)` spell exactly
`p`, and `T.left(k+1)`, with every tag it holds, is kept verbatim at the start of the
displayed text. -/
theorem C3_markup_is_cut_after_the_elided_plain_text (tk : Toolkit) (w : Int)
    (s : CElidingLabel) (p : QString)
    (hm : elideMode s ≠ TextElideMode.ElideNone)
    (hmk : tk.toPlainText (text s) ≠ text s)
    (hel : tk.elidedText (tk.toPlainText (text s)) (elideMode s)
      (w - tk.margin * 2 - tk.indent) = p ++ [ellipsis])
    (hne : p ++ [ellipsis] ≠ tk.toPlainText (text s))
    (hp0 : p ≠ [])
    (hpre : p <+: outsideTags false (text s))
    (hgt : tagClose ∉ p) :
    ∃ k r, (outsidePositions false (text s) 0).get? (p.length - 1) = some k ∧
      elideText tk w s = some r ∧
      r.labelText = (text s).take (k + 1) ++ [ellipsis] ∧ isElided r = true ∧
      outsideTags false ((text s).take (k + 1)) = p ∧
      (text s).take (k + 1) <+: r.labelText := by
  unfold elideMode text at *
  have hlen : 0 < p.length := List.length_pos.2 hp0
  obtain ⟨k, h1, h2, -, h4⟩ :=
    findEnd_finds_leading_part p hgt s.Text 0 false 0 hlen (by simpa using hpre)
  have hstr : elidedPlain tk w s = some (p ++ [ellipsis]) := by
    rw [elidedPlain_of_ne tk w s (by rw [hel]; simpa using hp0), hel]
  have hdisp : elidedDisplay s.Text (tk.toPlainText s.Text) (p ++ [ellipsis])
      = some (s.Text.take (k + 1) ++ [ellipsis]) := by
    unfold elidedDisplay
    have he : endsWithEllipsis (p ++ [ellipsis]) = true := by simp [endsWithEllipsis]
    simp only [ne_eq, hmk, not_false_eq_true, if_true, he, List.dropLast_concat, h2,
      Option.map_some', Option.some.injEq]
    have hk : (Int.ofNat k : Int) > -1 := by
      rw [Int.ofNat_eq_coe]
      omega
    rw [if_pos hk]
    congr 2
  have hres := elideText_of_elided tk w s _ hm hstr hne
  rw [hdisp, Option.map_some'] at hres
  exact ⟨k, _, by simpa using h1, hres, rfl, rfl, by simpa using h4, List.prefix_append _ _⟩

theorem C3_markup_is_cut_after_the_elided_plain_text_witness :
    ∃ k r, (outsidePositions false (text markupLabel) 0).get? ((utf16 ("Hello W")).length - 1)
        = some k ∧
      elideText fixedPitch 9 markupLabel = some r ∧
      r.labelText = (text markupLabel).take (k + 1) ++ [ellipsis] ∧ isElided r = true ∧
      outsideTags false ((text markupLabel).take (k + 1)) = utf16 ("Hello W") ∧
      (text markupLabel).take (k + 1) <+: r.labelText :=
  C3_markup_is_cut_after_the_elided_plain_text fixedPitch 9 markupLabel (utf16 ("Hello W"))
    (by decide) (by decide) (by decide)
    (by decide) (by decide) (by decide) (by decide)

/-- C3 as stated fails when a `>` lies outside a tag: the search skips it, meets a
mismatch at the next character and falls back, so `a>` is displayed instead of
`T.left(2) ++ "…"`. -/
theorem C3_stray_closing_bracket_defeats_the_search :
    fixedPitch.toPlainText (text strayLabel) ≠ text strayLabel ∧
      fixedPitch.elidedText (fixedPitch.toPlainText (text strayLabel)) (elideMode strayLabel)
        (4 - fixedPitch.margin * 2 - fixedPitch.indent) = utf16 ("a>") ++ [ellipsis] ∧
      utf16 ("a>") ++ [ellipsis] ≠ fixedPitch.toPlainText (text strayLabel) ∧
      utf16 ("a>") <+: outsideTags false (text strayLabel) ∧
      (outsidePositions false (text strayLabel) 0).get? ((utf16 ("a>")).length - 1) = some 1 ∧
      elideText fixedPitch 4 strayLabel
        = some { strayLabel with
            IsElided := true
            labelText := utf16 ("a>")
            emitted := [Signal.elidedChanged true] } ∧
      utf16 ("a>") ≠ (text strayLabel).take (1 + 1) ++ [ellipsis] := by
  decide

/-- The fallback of the search: for a text with markup, when the search meets outside a
tag a character that differs from the next expected one, the elide pass completes with
`isElided()` true and hands to `QLabel::setText` the string that was searched, which is the
elided plain text without its trailing ellipsis when it had one. -/
theorem elideText_failed_search (tk : Toolkit) (w : Int) (s : CElidingLabel) (str : QString)
    (hm : s.ElideMode ≠ TextElideMode.ElideNone)
    (hmk : tk.toPlainText s.Text ≠ s.Text)
    (hstr : elidedPlain tk w s = some str)
    (hne : str ≠ tk.toPlainText s.Text)
    (hfail : findEnd (if endsWithEllipsis str then str.dropLast else str) s.Text 0 false 0
      = some (-1)) :
    ∃ r, elideText tk w s = some r ∧ r.IsElided = true ∧
      r.labelText = (if endsWithEllipsis str then str.dropLast else str) := by
  have hdisp : elidedDisplay s.Text (tk.toPlainText s.Text) str
      = some (if endsWithEllipsis str then str.dropLast else str) := by
    unfold elidedDisplay
    simp [hmk, hfail]
  have hres := elideText_of_elided tk w s _ hm hstr hne
  rw [hdisp, Option.map_some'] at hres
  exact ⟨_, hres, rfl, rfl⟩

/-- C7 fails on the code: the text `Tom &amp; Jerry` has markup, the toolkit elides its
plain rendering to `Tom & …`, the ellipsis is cut off before the search, the search meets
the `a` of the entity where a blank is expected, and the fallback displays `Tom & `: the
elided plain text without its ellipsis, not the string that the toolkit returned;
`isElided()` is true. -/
theorem C7_fallback_displays_the_elided_text_without_its_ellipsis :
    elideMode ampersandLabel ≠ TextElideMode.ElideNone ∧
      fixedPitch.toPlainText (text ampersandLabel) = utf16 ("Tom & Jerry") ∧
      fixedPitch.toPlainText (text ampersandLabel) ≠ text ampersandLabel ∧
      fixedPitch.elidedText (fixedPitch.toPlainText (text ampersandLabel))
        (elideMode ampersandLabel) (8 - fixedPitch.margin * 2 - fixedPitch.indent)
        = utf16 ("Tom & …") ∧
      findEnd (utf16 ("Tom & ")) (text ampersandLabel) 0 false 0 = some (-1) ∧
      elideText fixedPitch 8 ampersandLabel
        = some { ampersandLabel with
            IsElided := true
            labelText := utf16 ("Tom & ")
            emitted := [Signal.elidedChanged true] } ∧
      utf16 ("Tom & ") ≠ utf16 ("Tom & …") ∧
      ellipsis ∉ utf16 ("Tom & ") := by
  decide

/-- When the toolkit returns a lone ellipsis, the elide pass searches and, after a failed
search, displays the first character of the plain text (lines 74-77). -/
theorem elideText_failed_search_after_lone_ellipsis :
    fixedPitch.elidedText (fixedPitch.toPlainText (text entityLabel)) (elideMode entityLabel)
        (1 - fixedPitch.margin * 2 - fixedPitch.indent) = [ellipsis] ∧
      elidedPlain fixedPitch 1 entityLabel = some (utf16 ("<")) ∧
      findEnd (utf16 ("<")) (text entityLabel) 0 false 0 = some (-1) ∧
      elideText fixedPitch 1 entityLabel
        = some { entityLabel with
            IsElided := true
            labelText := utf16 ("<")
            emitted := [Signal.elidedChanged true] } := by
  decide

/-- The read `plain.at(0)` yields one code unit: for a plain text that starts outside the
basic plane it is the high surrogate of the first character. -/
theorem at0_is_the_first_code_unit :
    utf16 ("😀x") = [0xD83D, 0xDE00, 0x78] ∧ at0 (utf16 ("😀x")) = some 0xD83D := by
  decide

/-! ## The ellipsis in the displayed text -/

/-- C1, amended: in a mode other than `ElideNone`, when the string returned by the toolkit
contains an ellipsis and is not the lone ellipsis, and the text has no markup, or the
markup search meets no mismatch, or that string does not end with an ellipsis, the elide
pass completes, and whenever `isElided()` is true after it the displayed string contains
the ellipsis. -/
theorem C1_elided_label_displays_an_ellipsis (tk : Toolkit) (w : Int) (s : CElidingLabel)
    (hm : elideMode s ≠ TextElideMode.ElideNone)
    (hlone : tk.elidedText (tk.toPlainText (text s)) (elideMode s)
      (w - tk.margin * 2 - tk.indent) ≠ [ellipsis])
    (hmark : ellipsis ∈ tk.elidedText (tk.toPlainText (text s)) (elideMode s)
      (w - tk.margin * 2 - tk.indent))
    (hsearch : tk.toPlainText (text s) = text s ∨
      findEnd (if endsWithEllipsis (tk.elidedText (tk.toPlainText (text s)) (elideMode s)
          (w - tk.margin * 2 - tk.indent))
        then (tk.elidedText (tk.toPlainText (text s)) (elideMode s)
          (w - tk.margin * 2 - tk.indent)).dropLast
        else tk.elidedText (tk.toPlainText (text s)) (elideMode s)
          (w - tk.margin * 2 - tk.indent)) (text s) 0 false 0 ≠ some (-1) ∨
      endsWithEllipsis (tk.elidedText (tk.toPlainText (text s)) (elideMode s)
        (w - tk.margin * 2 - tk.indent)) = false) :
    ∃ r, elideText tk w s = some r ∧ (isElided r = true → ellipsis ∈ r.labelText) := by
  unfold elideMode text isElided at *
  have hstr := elidedPlain_of_ne tk w s hlone
  generalize tk.elidedText (tk.toPlainText s.Text) s.ElideMode
    (w - tk.margin * 2 - tk.indent) = str at *
  by_cases hne : str = tk.toPlainText s.Text
  · refine ⟨{ s with
        IsElided := false
        emitted := if false ≠ s.IsElided then s.emitted ++ [Signal.elidedChanged false]
                   else s.emitted
        labelText := s.Text }, ?_, fun he => absurd he (by simp)⟩
    unfold elideText
    rw [(isModeElideNone_eq_false s).2 hm]
    simp [hstr, hne]
  · have hres := elideText_of_elided tk w s _ hm hstr hne
    have hd : ∃ shown, elidedDisplay s.Text (tk.toPlainText s.Text) str = some shown ∧
        ellipsis ∈ shown := by
      unfold elidedDisplay
      by_cases hmk : tk.toPlainText s.Text = s.Text
      · exact ⟨str, by simp [hmk], hmark⟩
      · have hs0 : str ≠ [] := List.ne_nil_of_mem hmark
        obtain ⟨j, hj⟩ := findEnd_isSome _ s.Text 0 false 0 (searched_length_pos str hs0 hlone)
        simp only [ne_eq, hmk, not_false_eq_true, if_true, hj, Option.map_some']
        by_cases hj2 : j > -1
        · rw [if_pos hj2]
          exact ⟨_, rfl, by simp⟩
        · rw [if_neg hj2]
          refine ⟨_, rfl, ?_⟩
          have hj1 : j = -1 := by
            rcases findEnd_range _ _ _ _ _ _ hj with h0 | h0
            · exact h0
            · omega
          rcases hsearch with h0 | h0 | h0
          · exact absurd h0 hmk
          · exact absurd (hj1 ▸ hj) h0
          · rw [h0]
            simpa using hmark
    obtain ⟨shown, hd, hmem⟩ := hd
    rw [hd, Option.map_some'] at hres
    exact ⟨_, hres, fun _ => hmem⟩

theorem C1_elided_label_displays_an_ellipsis_witness :
    elideText fixedPitch 9 markupLabel = some markupElided ∧
      isElided markupElided = true ∧
      (∃ r, elideText fixedPitch 9 markupLabel = some r ∧
        (isElided r = true → ellipsis ∈ r.labelText)) ∧
      findEnd (utf16 ("…ef")) (text leftLabel) 0 false 0 = some (-1) ∧
      ∃ r, elideText fixedPitch 4 leftLabel = some r ∧
        (isElided r = true → ellipsis ∈ r.labelText) :=
  ⟨by decide, by decide,
    C1_elided_label_displays_an_ellipsis fixedPitch 9 markupLabel (by decide) (by decide)
      (by decide) (Or.inr (Or.inl (by decide))),
    by decide,
    C1_elided_label_displays_an_ellipsis fixedPitch 4 leftLabel (by decide) (by decide)
      (by decide) (Or.inr (Or.inr (by decide)))⟩

/-- C1 as stated fails: when the toolkit returns a lone ellipsis, the elide pass replaces
it by the first character of the plain text, so `isElided()` is true and the displayed
string has no ellipsis. -/
theorem C1_lone_ellipsis_is_replaced_by_first_character :
    setElideMode fixedPitch TextElideMode.ElideRight 1 (CElidingLabel.create (utf16 ("ab")))
        = some { labelOf TextElideMode.ElideRight (utf16 ("ab")) with
            IsElided := true
            labelText := utf16 ("a")
            emitted := [Signal.elidedChanged true] } ∧
      fixedPitch.elidedText (fixedPitch.toPlainText (utf16 ("ab"))) TextElideMode.ElideRight 1
        = [ellipsis] ∧
      ellipsis ∉ utf16 ("a") := by
  decide

/-! ## Reads inside the strings -/

/-- C9 fails on the code: the fixed-pitch toolkit returns the empty string only for empty
text, yet for a text with markup whose plain rendering starts with an ellipsis and is
elided to a lone ellipsis, the elide pass replaces the ellipsis by the first plain
character (an ellipsis again), cuts it off, and the search reads `str[0]` of the empty
string. -/
theorem C9_search_reads_past_the_end_of_an_empty_string :
    (∀ plain mode w, fixedPitch.elidedText plain mode w = [] ↔ plain = []) ∧
      fixedPitch.toPlainText (text ellipsisLabel) = utf16 ("…x") ∧
      fixedPitch.elidedText (utf16 ("…x")) TextElideMode.ElideRight
        (1 - fixedPitch.margin * 2 - fixedPitch.indent) = [ellipsis] ∧
      elidedPlain fixedPitch 1 ellipsisLabel = some [ellipsis] ∧
      ([] : QString).get? 0 = none ∧
      elideText fixedPitch 1 ellipsisLabel = none ∧
      setElideMode fixedPitch TextElideMode.ElideRight 1
        (CElidingLabel.create (utf16 ("<b>…x</b>"))) = none :=
  ⟨fixedPitchElided_eq_nil, by decide, by decide, by decide, by decide, by decide, by decide⟩

end ads
